import Mathlib

/-!
Verification development for the GRE vocabulary-guide generator
(`generate_vocab_guide.py`).

The script is embedded shallowly over `List Char`.  Python strings are
modelled as `List Char`; the handful of regular expressions the script uses
are modelled by dedicated matcher functions whose input/output behaviour
(including the relevant greedy/lazy backtracking) follows the `re` semantics of Python at the concrete patterns appearing in the source.  Whitespace
(`\s`), word characters (`[a-zA-Z]`) and digits (`\d`) are modelled at their
ASCII meaning.
-/

set_option maxRecDepth 100000

/-- ASCII lower-casing on code points, used for the case-insensitive
regex comparisons (`re.IGNORECASE`) and `str.lower()`. -/
def lowN (n : Nat) : Nat := if 65 ≤ n ∧ n ≤ 90 then n + 32 else n

/-- Case-insensitive character equality (ASCII). -/
def chEqCI (a b : Char) : Bool := lowN a.toNat == lowN b.toNat

/-- Python `\s` at its ASCII core: space, tab, newline, vertical tab,
form feed, carriage return. -/
def isSpaceChar (c : Char) : Bool := c.toNat == 32 || (9 ≤ c.toNat && c.toNat ≤ 13)

/-- The regex class `[a-zA-Z]`. -/
def isAsciiAlpha (c : Char) : Bool :=
  (65 ≤ c.toNat && c.toNat ≤ 90) || (97 ≤ c.toNat && c.toNat ≤ 122)

/-- The regex class `\d` (ASCII digits). -/
def isDigitChar (c : Char) : Bool := 48 ≤ c.toNat && c.toNat ≤ 57

/-- Python `str.strip()` on the left. -/
def lstripWS (s : List Char) : List Char := s.dropWhile fun c => isSpaceChar c

/-- Python `str.strip()` on the right. -/
def rstripWS (s : List Char) : List Char := (s.reverse.dropWhile fun c => isSpaceChar c).reverse

/-- Python `str.strip()`. -/
def pyStrip (s : List Char) : List Char := rstripWS (lstripWS s)

/-- Python `str.rstrip('.')`: remove every trailing period. -/
def rstripPeriods (s : List Char) : List Char := (s.reverse.dropWhile fun c => c == '.').reverse

/-- Python `str.split('\n')`. -/
def splitOnNl : List Char → List (List Char)
  | [] => [[]]
  | c :: cs =>
    if c == '\n' then [] :: splitOnNl cs
    else
      match splitOnNl cs with
      | [] => [[c]]
      | l :: ls => (c :: l) :: ls

/-- Match a literal pattern case-insensitively at the head of `s`,
returning the rest of `s` on success. -/
def matchCI : List Char → List Char → Option (List Char)
  | [], s => some s
  | _ :: _, [] => none
  | p :: ps, c :: cs => if chEqCI p c then matchCI ps cs else none

/-- Models `s.lower().startswith(pat)` for a lowercase ASCII `pat`. -/
def startsWithCI (pat s : List Char) : Bool := (matchCI pat s).isSome

/-- Models `re.sub(r"^<pat>:\s*", "", s, flags=re.IGNORECASE)` for the anchored
literal patterns `^mnemonic:\s*` and `^definition:\s*`: drop the literal
and the following whitespace run if the literal matches at the start. -/
def subAnchorCI (pat s : List Char) : List Char :=
  match matchCI pat s with
  | some r => r.dropWhile fun c => isSpaceChar c
  | none => s

/-- The word capture `([a-zA-Z]+(?:\s+[a-zA-Z]+)?)` shared by both
word-entry regexes: one or two alphabetic tokens.  Returns the captured
word and the rest of the line.  The backtracking of the regex engine is
resolved: the greedy token/whitespace runs are maximal runs, and when a
second alphabetic token follows whitespace it is always part of the
capture (retrying with one token cannot make the following `\s*-` match,
because the position after the whitespace run holds a letter). -/
def wordTokens (s : List Char) : Option (List Char × List Char) :=
  let t1 := s.takeWhile isAsciiAlpha
  if t1.isEmpty then none
  else
    let r1 := s.dropWhile isAsciiAlpha
    let ws := r1.takeWhile isSpaceChar
    let r2 := r1.dropWhile isSpaceChar
    let t2 := r2.takeWhile isAsciiAlpha
    if !ws.isEmpty && !t2.isEmpty then
      some (t1 ++ ws ++ t2, r2.dropWhile isAsciiAlpha)
    else
      some (t1, r1)

/-- Models `re.match(r"^([a-zA-Z]+(?:\s+[a-zA-Z]+)?)\s*-\s*Mnemonic:\s*(.+)$",
line, re.IGNORECASE)` (source line 103).  Returns (group 1, group 2).
After `Mnemonic:` the greedy `\s*` takes the whole whitespace run unless
nothing would remain for `(.+)`, in which case it backs off one character
(so a run of trailing whitespace yields its last character as group 2). -/
def wordMnemonicMatch (line : List Char) : Option (List Char × List Char) :=
  match wordTokens line with
  | none => none
  | some (w, rest) =>
    match rest.dropWhile isSpaceChar with
    | '-' :: r4 =>
      match matchCI "mnemonic:".data (r4.dropWhile isSpaceChar) with
      | none => none
      | some r6 =>
        let g := r6.dropWhile isSpaceChar
        if !g.isEmpty then some (w, g)
        else
          match r6.reverse with
          | [] => none
          | c :: _ => some (w, [c])
    | _ => none

/-- Models `re.match(r"^([a-zA-Z]+(?:\s+[a-zA-Z]+)?)\s*-\s*(?!Mnemonic)(.+)$",
line, re.IGNORECASE)` (source line 107).  The greedy `\s*` after the dash
first takes the whole whitespace run; if the negative lookahead
`(?!Mnemonic)` or the nonempty-rest requirement then fails, the engine
backs off one whitespace character, and the lookahead succeeds at that
whitespace position — so e.g. `Foo - Mnemonic: x` still matches, with
group 2 `" Mnemonic: x"`. -/
def wordDefMatch (line : List Char) : Option (List Char × List Char) :=
  match wordTokens line with
  | none => none
  | some (w, rest) =>
    match rest.dropWhile isSpaceChar with
    | '-' :: r4 =>
      let g := r4.dropWhile isSpaceChar
      if !g.isEmpty && !startsWithCI "mnemonic".data g then some (w, g)
      else
        match (r4.takeWhile isSpaceChar).reverse with
        | [] => none
        | c :: _ => some (w, c :: g)
    | _ => none

/-- The tail `\s*(.+?)\.?$` of the inline-definition search: given the text
after `Definition:`, compute capture group 1 (lazy `(.+?)` expands only
until the optional final period and end of line can match). -/
def defTail (r : List Char) : Option (List Char) :=
  let g := r.dropWhile isSpaceChar
  if !g.isEmpty then
    if g.getLast? == some '.' && decide (2 ≤ g.length) then some g.dropLast else some g
  else
    match r.reverse with
    | [] => none
    | c :: _ => some [c]

/-- Models `re.search(r"Definition:\s*(.+?)\.?$", s, re.IGNORECASE)` (source line
122): scan for the leftmost occurrence of `Definition:` whose tail
matches, returning capture group 1. -/
def defSearch : List Char → Option (List Char)
  | [] => none
  | c :: cs =>
    match matchCI "definition:".data (c :: cs) with
    | some r =>
      match defTail r with
      | some g => some g
      | none => defSearch cs
    | none => defSearch cs

/-- Does `\s*Definition:` match at this position, i.e. does skipping the
whitespace run land on a (case-insensitive) `Definition:`? -/
def wsDefHere (s : List Char) : Bool :=
  startsWithCI "definition:".data (s.dropWhile isSpaceChar)

/-- Models `re.sub(r"\s*Definition:.*$", "", s, flags=re.IGNORECASE)` (source
line 124) on a single line: keep the text before the leftmost position
from which `\s*Definition:` matches; the `.*$` swallows the rest. -/
def defSubKeep : List Char → List Char
  | [] => []
  | c :: cs => if wsDefHere (c :: cs) then [] else c :: defSubKeep cs

/-- Models `int()` on a nonempty ASCII digit string. -/
def natOfDigits (ds : List Char) : Nat := ds.foldl (fun n c => n * 10 + (c.toNat - 48)) 0

/-- Try the case-SENSITIVE marker regex `Group\s+(\d+)` (source line 80)
at the current position: literal `Group`, a nonempty whitespace run, a
nonempty digit run.  Returns the captured number and the rest. -/
def tryGroupMarker (s : List Char) : Option (Nat × List Char) :=
  match s with
  | 'G' :: 'r' :: 'o' :: 'u' :: 'p' :: r1 =>
    let ws := r1.takeWhile isSpaceChar
    if ws.isEmpty then none
    else
      let r2 := r1.dropWhile isSpaceChar
      let ds := r2.takeWhile isDigitChar
      if ds.isEmpty then none
      else some (natOfDigits ds, r2.dropWhile isDigitChar)
  | _ => none

/-- The effect of `re.split(r"Group\s+(\d+)", text)` together with the
index-stepping loop of `parse_response` (source lines 81–87): scan left to
right for non-overlapping marker matches and return the preamble plus the
list of (group number, following segment) pairs.  `fuel` bounds the scan;
it is always called with `fuel = s.length`, which suffices because every
step consumes at least one character. -/
def groupScanAux : Nat → List Char → List Char × List (Nat × List Char)
  | 0, s => (s, [])
  | _ + 1, [] => ([], [])
  | fuel + 1, c :: cs =>
    match tryGroupMarker (c :: cs) with
    | some (n, rest) =>
      let p := groupScanAux fuel rest
      ([], (n, p.1) :: p.2)
    | none =>
      let p := groupScanAux fuel cs
      (c :: p.1, p.2)

/-- Is there any `Group\s+(\d+)` marker anywhere in `s`? -/
def hasGroupMarker : List Char → Bool
  | [] => false
  | c :: cs => (tryGroupMarker (c :: cs)).isSome || hasGroupMarker cs

/-- The three tail shapes of the preamble-stripping patterns of
`clean_response_text` (source lines 17–30): `\.?\s*`, `.*?:\s*` and
`.*?\.\s*`. -/
inductive CTail where
  | optDotWs : CTail
  | toColonWs : CTail
  | toDotWs : CTail
deriving DecidableEq

/-- One preamble pattern: a set of alternative literals (the alternation
`(?:is|are)` of pattern 7 expands to two literals) followed by a tail. -/
structure CPat where
  lits : List (List Char)
  tl : CTail

/-- Consume up to and including the first occurrence of `target` on the
current line (`.` in the regexes does not match a newline), or fail. -/
def findOnLine (target : Char) : List Char → Option (List Char)
  | [] => none
  | c :: cs => if c == target then some cs else if c == '\n' then none else findOnLine target cs

/-- Match a pattern tail.  Returns the rest and whether the last consumed
character was a newline (the following `\s*` may swallow newlines, which
re-anchors `^` for the next scan position). -/
def ctailMatch : CTail → List Char → Option (List Char × Bool)
  | .optDotWs, s =>
    let s1 := match s with | '.' :: r => r | _ => s
    some (s1.dropWhile isSpaceChar, (s1.takeWhile isSpaceChar).getLast? == some '\n')
  | .toColonWs, s =>
    (findOnLine ':' s).map fun r =>
      (r.dropWhile isSpaceChar, (r.takeWhile isSpaceChar).getLast? == some '\n')
  | .toDotWs, s =>
    (findOnLine '.' s).map fun r =>
      (r.dropWhile isSpaceChar, (r.takeWhile isSpaceChar).getLast? == some '\n')

/-- Try a preamble pattern at the current (line-start) position. -/
def tryCPat (p : CPat) (s : List Char) : Option (List Char × Bool) :=
  p.lits.firstM fun lit =>
    match matchCI lit s with
    | some r => ctailMatch p.tl r
    | none => none

/-- One `re.sub(pattern, "", text, flags=re.IGNORECASE | re.MULTILINE)`
pass: scan left to right, and at every `^`-anchored position (start of
string, or just after a newline) delete a pattern match, continuing after
it.  `fuel` bounds the scan; every step consumes at least one character,
so `fuel = s.length` suffices. -/
def subCPat (p : CPat) : Nat → Bool → List Char → List Char
  | 0, _, s => s
  | _ + 1, _, [] => []
  | fuel + 1, atStart, c :: cs =>
    if atStart then
      match tryCPat p (c :: cs) with
      | some (rest, nl) => subCPat p fuel nl rest
      | none => c :: subCPat p fuel (c == '\n') cs
    else c :: subCPat p fuel (c == '\n') cs

/-- The apostrophe character. -/
def apos : Char := Char.ofNat 39

/-- The twelve preamble patterns of `clean_response_text` (source lines
17–30), in source order, literals lower-cased for the case-insensitive
match. -/
def cleanPats : List CPat :=
  [ ⟨["of course".data], .optDotWs⟩
  , ⟨["absolutely".data], .optDotWs⟩
  , ⟨["no problem".data], .optDotWs⟩
  , ⟨["you got it".data], .optDotWs⟩
  , ⟨["sure".data], .optDotWs⟩
  , ⟨["certainly".data], .optDotWs⟩
  , ⟨["here is ".data, "here are ".data], .toColonWs⟩
  , ⟨["let".data ++ apos :: "s continue".data], .toDotWs⟩
  , ⟨["let".data ++ apos :: "s keep going".data], .toDotWs⟩
  , ⟨["let".data ++ apos :: "s pick up where we left off".data], .toDotWs⟩
  , ⟨["my apologies".data], .toDotWs⟩
  , ⟨["apologies for".data], .toDotWs⟩ ]

/-- Models `clean_response_text` (source lines 14–35): apply the twelve
substitutions in order, then strip the result. -/
def clean_response_text (text : List Char) : List Char :=
  pyStrip (cleanPats.foldl (fun t p => subCPat p t.length true t) text)

/-- A parsed vocabulary entry (word / mnemonic / definition). -/
structure VocabEntry where
  word : List Char
  mnemonic : List Char
  definition : List Char
deriving DecidableEq

/-- A parsed vocabulary group. -/
structure VocabGroup where
  number : Nat
  entries : List VocabEntry
deriving DecidableEq

/-- The line-loop state of `parse_response` (source lines 92–94):
`current_word`, `current_mnemonic`, `current_definition` (Python `None`
is `none`) plus the entries list built so far. -/
structure PState where
  word : Option (List Char)
  mnemonic : Option (List Char)
  definition : Option (List Char)
  entries : List VocabEntry
deriving DecidableEq

/-- Python truthiness of an optional string: not `None` and nonempty. -/
def truthyO : Option (List Char) → Bool
  | none => false
  | some s => !s.isEmpty

/-- The entry appended by a flush: `current_mnemonic or ""` and
`current_definition or ""` (and the Python `x or ""` equals `x.getD ""` on
optional strings, since `"" or ""` is `""`). -/
def mkEntry (st : PState) : VocabEntry :=
  ⟨st.word.getD [], st.mnemonic.getD [], st.definition.getD []⟩

/-- The guard of the conditional flushes (source lines 111, 170):
`current_word and (current_definition or current_mnemonic)`. -/
def flushGuard (st : PState) : Bool :=
  truthyO st.word && (truthyO st.definition || truthyO st.mnemonic)

/-- One iteration of the line loop of `parse_response` (source lines
96–167): strip the line, skip it when empty, then take the first matching
branch of the `if`/`elif` chain. -/
def stepLine (st : PState) (rawLine : List Char) : PState :=
  let line := pyStrip rawLine
  if line.isEmpty then st
  else
    match wordMnemonicMatch line with
    | some (w, g2) =>
      let entries1 := if flushGuard st then st.entries ++ [mkEntry st] else st.entries
      let mad := pyStrip g2
      match defSearch mad with
      | some d =>
        { word := some (pyStrip w)
          mnemonic := some (rstripPeriods (pyStrip (defSubKeep mad)))
          definition := some (rstripPeriods (pyStrip d))
          entries := entries1 }
      | none =>
        { word := some (pyStrip w)
          mnemonic := some (rstripPeriods mad)
          definition := none
          entries := entries1 }
    | none =>
      if startsWithCI "mnemonic:".data line then
        { st with mnemonic := some (rstripPeriods (pyStrip (subAnchorCI "mnemonic:".data line))) }
      else if startsWithCI "definition:".data line then
        { st with definition := some (rstripPeriods (pyStrip (subAnchorCI "definition:".data line))) }
      else
        match wordDefMatch line with
        | some (w, t) =>
          if st.word.isNone then
            -- source lines 142–153; the inner guarded flush (lines 144–149)
            -- is mirrored although it can never fire here, `current_word`
            -- being `None`
            let entries1 := if flushGuard st then st.entries ++ [mkEntry st] else st.entries
            { word := some (pyStrip w)
              mnemonic := none
              definition := some (rstripPeriods (pyStrip t))
              entries := entries1 }
          else
            -- source lines 156–167: this flush is unconditional
            { word := some (pyStrip w)
              mnemonic := none
              definition := some (rstripPeriods (pyStrip t))
              entries := st.entries ++ [mkEntry st] }
        | none => st

/-- Run the line loop over a list of raw lines. -/
def runLines (st : PState) (lines : List (List Char)) : PState :=
  lines.foldl stepLine st

/-- The initial line-loop state. -/
def st0 : PState := ⟨none, none, none, []⟩

/-- The final flush after the last line of a group (source lines
170–175). -/
def finalizeEntries (st : PState) : List VocabEntry :=
  if flushGuard st then st.entries ++ [mkEntry st] else st.entries

/-- Parse the raw content of one group (source lines 89–175):
`content.strip().split('\n')`, the line loop, and the final flush. -/
def parseEntries (content : List Char) : List VocabEntry :=
  finalizeEntries (runLines st0 (splitOnNl (pyStrip content)))

/-- The (group number, raw content) pairs produced for a response text:
clean it, then split on the `Group\s+(\d+)` markers. -/
def groupPairs (text : List Char) : List (Nat × List Char) :=
  let t := clean_response_text text
  (groupScanAux t.length t).2

/-- Models `parse_response` (source lines 74–185): parse each group segment and
keep the groups with at least one entry. -/
def parse_response (text : List Char) : List VocabGroup :=
  (groupPairs text).filterMap fun p =>
    let es := parseEntries p.2
    if es.isEmpty then none else some ⟨p.1, es⟩

/-- The per-group step of the deduplication loop of `main` (source lines
575–578): append the group unless its number was already seen.  The
accumulator is `(all_groups, seen_groups)`; the Python `set` is modelled
as a list queried by membership. -/
def addGroup (ac : List VocabGroup × List Nat) (g : VocabGroup) : List VocabGroup × List Nat :=
  if g.number ∈ ac.2 then ac else (ac.1 ++ [g], g.number :: ac.2)

/-- The whole extraction stage of `main` (source lines 568–579): parse
the blocks in order, deduplicating group numbers first-write-wins. -/
def extractCorpus (blocks : List (List Char)) : List VocabGroup :=
  (blocks.foldl (fun ac b => (parse_response b).foldl addGroup ac) ([], [])).1

/-- Python `str.replace(old, new)` at a single-character `old`, as used
for the HTML escaping (source lines 531–532): every occurrence of the
character is replaced. -/
def replaceChar (a : Char) (rep : List Char) : List Char → List Char
  | [] => []
  | c :: cs => (if c == a then rep else [c]) ++ replaceChar a rep cs

/-- The escaping chain of `generate_html` (source lines 531–532):
`.replace('&', '&amp;').replace('<', '&lt;').replace('>', '&gt;')`,
ampersand first. -/
def escapeHtml (s : List Char) : List Char :=
  replaceChar '>' "&gt;".data (replaceChar '<' "&lt;".data (replaceChar '&' "&amp;".data s))

/-- Character-wise escaping: the claimed net effect of the chain. -/
def escChar (c : Char) : List Char :=
  if c == '&' then "&amp;".data
  else if c == '<' then "&lt;".data
  else if c == '>' then "&gt;".data
  else [c]

/-- ASCII upper-casing of a letter, by cases (Python `str.title()`
restricted to ASCII input). -/
def upChar : Char → Char
  | 'a' => 'A' | 'b' => 'B' | 'c' => 'C' | 'd' => 'D' | 'e' => 'E' | 'f' => 'F'
  | 'g' => 'G' | 'h' => 'H' | 'i' => 'I' | 'j' => 'J' | 'k' => 'K' | 'l' => 'L'
  | 'm' => 'M' | 'n' => 'N' | 'o' => 'O' | 'p' => 'P' | 'q' => 'Q' | 'r' => 'R'
  | 's' => 'S' | 't' => 'T' | 'u' => 'U' | 'v' => 'V' | 'w' => 'W' | 'x' => 'X'
  | 'y' => 'Y' | 'z' => 'Z'
  | c => c

/-- ASCII lower-casing of a letter, by cases. -/
def loChar : Char → Char
  | 'A' => 'a' | 'B' => 'b' | 'C' => 'c' | 'D' => 'd' | 'E' => 'e' | 'F' => 'f'
  | 'G' => 'g' | 'H' => 'h' | 'I' => 'i' | 'J' => 'j' | 'K' => 'k' | 'L' => 'l'
  | 'M' => 'm' | 'N' => 'n' | 'O' => 'o' | 'P' => 'p' | 'Q' => 'q' | 'R' => 'r'
  | 'S' => 's' | 'T' => 't' | 'U' => 'u' | 'V' => 'v' | 'W' => 'w' | 'X' => 'x'
  | 'Y' => 'y' | 'Z' => 'z'
  | c => c

/-- Python `str.title()` on ASCII text: a letter is upper-cased when the
previous character is not a letter, lower-cased otherwise.  The flag
carries whether the previous character was a letter. -/
def pyTitleAux : Bool → List Char → List Char
  | _, [] => []
  | prevAlpha, c :: cs =>
    (if isAsciiAlpha c then (if prevAlpha then loChar c else upChar c) else c)
      :: pyTitleAux (isAsciiAlpha c) cs

/-- Models `entry["word"].title()` (source line 526). -/
def pyTitle (s : List Char) : List Char := pyTitleAux false s

/-- One table row of `generate_html` (source lines 525–534): the word is
title-cased and inserted unescaped; mnemonic and definition are escaped. -/
def rowHtml (e : VocabEntry) : List Char :=
  "            <tr><td>".data ++ pyTitle e.word ++ "</td><td>".data ++
    escapeHtml e.mnemonic ++ "</td><td>".data ++ escapeHtml e.definition ++
    "</td></tr>\n".data

/-- Stable insertion of a group into a number-sorted list: the new group
goes after every group with a smaller-or-equal number.  Folding this over
a list is a stable sort by `number`, the effect of
`all_groups.sort(key=lambda x: x["number"])` (source line 192). -/
def insertByNumber (g : VocabGroup) : List VocabGroup → List VocabGroup
  | [] => [g]
  | h :: t => if h.number ≤ g.number then h :: insertByNumber g t else g :: h :: t

/-- The sorted corpus used by the renderer. -/
def sortGroups (l : List VocabGroup) : List VocabGroup :=
  l.foldl (fun acc g => insertByNumber g acc) []

/-- The dict `group_lookup` built by `dict` comprehension over `all_groups`, keyed
by group number
(source line 209): on duplicate keys the last entry wins. -/
def dictGet (l : List VocabGroup) (n : Nat) : Option VocabGroup :=
  (l.filter fun g => g.number == n).getLast?

/-- Models `gnum in group_lookup` over the sorted corpus. -/
def inLookup (corpus : List VocabGroup) (n : Nat) : Bool :=
  (dictGet (sortGroups corpus) n).isSome

/-- One episode of the hard-coded episode table (source lines 198–206). -/
structure Episode where
  name : String
  desc : String
  groups : List Nat
deriving DecidableEq

/-- The seven fixed episodes (source lines 198–206); `range(a, b)` is
`List.range' a (b - a)`. -/
def episodes : List Episode :=
  [ ⟨"Episode 1: Groups 1â€“4", "Foundation vocabulary", List.range' 1 4⟩
  , ⟨"Episode 2: Groups 5â€“9", "Building blocks", List.range' 5 5⟩
  , ⟨"Episode 3: Groups 10â€“14", "Advanced concepts", List.range' 10 5⟩
  , ⟨"Episode 4: Groups 15â€“19", "Expanding horizons", List.range' 15 5⟩
  , ⟨"Episode 5: Groups 20â€“24", "Deepening knowledge", List.range' 20 5⟩
  , ⟨"Episode 6: Groups 25â€“29", "Mastery level", List.range' 25 5⟩
  , ⟨"Episode 7: Groups 30â€“34", "Expert vocabulary", List.range' 30 5⟩ ]

/-- The group numbers the TOC block of an episode links to (source lines
486–488): the numbers of the range of the episode present in the lookup. -/
def tocLinks (corpus : List VocabGroup) (ep : Episode) : List Nat :=
  ep.groups.filter fun n => inLookup corpus n

/-- The table of contents: one block per episode, each with its link
list (source lines 480–491). -/
def tocBlocks (corpus : List VocabGroup) : List (Episode × List Nat) :=
  episodes.map fun ep => (ep, tocLinks corpus ep)

/-- Models `episode_groups` for one body section (source line 499). -/
def episodeGroups (corpus : List VocabGroup) (ep : Episode) : List VocabGroup :=
  ep.groups.filterMap fun n => dictGet (sortGroups corpus) n

/-- The episodes that get a body section: those with at least one
resolvable group (source lines 499–501). -/
def bodyEpisodes (corpus : List VocabGroup) : List Episode :=
  episodes.filter fun ep => !(episodeGroups corpus ep).isEmpty

/-- Straight-line first-write-wins deduplication, used to characterise
the accumulator fold of `extractCorpus` in the proofs. -/
def dedupF (seen : List Nat) : List VocabGroup → List VocabGroup
  | [] => []
  | g :: gs => if g.number ∈ seen then dedupF seen gs else g :: dedupF (g.number :: seen) gs

/-- The seen-set after folding the deduplication step over a group list. -/
def seenF (s : List Nat) : List VocabGroup → List Nat
  | [] => s
  | g :: gs => if g.number ∈ s then seenF s gs else seenF (g.number :: s) gs

/-- All groups parsed from all blocks, in processing order. -/
def streamOf (blocks : List (List Char)) : List VocabGroup :=
  (blocks.map parse_response).flatten

/-- Character-wise escaping: each character independently mapped. -/
def escAll : List Char → List Char
  | [] => []
  | c :: cs => escChar c ++ escAll cs

/-- No leading whitespace (vacuous on the empty string). -/
def noLeadWS (s : List Char) : Bool := s.head?.all fun c => !isSpaceChar c

/-- No trailing period (vacuous on the empty string). -/
def noTrailDot (s : List Char) : Bool := s.getLast?.all fun c => !(c == '.')

/-- A retained text field: no leading whitespace, no trailing period. -/
def tidyStr (s : List Char) : Prop := noLeadWS s = true ∧ noTrailDot s = true

/-- Lifts `tidyStr` to the optional in-progress fields. -/
def tidyOpt (o : Option (List Char)) : Prop := ∀ s, o = some s → tidyStr s

/-- The parse-state invariant behind claim C2. -/
def tidySt (st : PState) : Prop :=
  tidyOpt st.mnemonic ∧ tidyOpt st.definition ∧
    ∀ e ∈ st.entries, tidyStr e.mnemonic ∧ tidyStr e.definition

/-- A character the word regexes can capture: `[a-zA-Z]` or `\s`. -/
def goodChar (c : Char) : Bool := isAsciiAlpha c || isSpaceChar c

/-- All characters of a word come from the word-capture regex classes. -/
def goodWord (s : List Char) : Prop := ∀ c ∈ s, goodChar c = true

/-- A character that cannot open or close HTML markup. -/
def okOut (c : Char) : Prop := c ≠ '&' ∧ c ≠ '<' ∧ c ≠ '>'

/-- Lifts `goodWord` to the optional in-progress word. -/
def goodOpt (o : Option (List Char)) : Prop := ∀ s, o = some s → goodWord s

/-- The parse-state invariant behind claim C10. -/
def goodSt (st : PState) : Prop := goodOpt st.word ∧ ∀ e ∈ st.entries, goodWord e.word

/-- The conditions under which the line loop reaches its unconditional
flush (source lines 156–167): a nonempty line matched by the
word-definition regex alone, while an entry is in progress. -/
def wordDefTrigger (st : PState) (rawLine : List Char) : Prop :=
  (pyStrip rawLine).isEmpty = false ∧
    wordMnemonicMatch (pyStrip rawLine) = none ∧
    startsWithCI "mnemonic:".data (pyStrip rawLine) = false ∧
    startsWithCI "definition:".data (pyStrip rawLine) = false ∧
    (wordDefMatch (pyStrip rawLine)).isSome = true ∧
    st.word.isNone = false

instance (st : PState) (rawLine : List Char) : Decidable (wordDefTrigger st rawLine) := by
  unfold wordDefTrigger; infer_instance

/-- The in-progress entry would satisfy the retention invariant if
flushed: a truthy mnemonic or definition. -/
def safeFlush (st : PState) : Prop :=
  truthyO st.mnemonic = true ∨ truthyO st.definition = true

instance (st : PState) : Decidable (safeFlush st) := by
  unfold safeFlush; infer_instance

/-- Every unconditional word-definition flush inside the line list of a group
happens on a state whose in-progress entry has a truthy mnemonic or
definition. -/
def safeWordDefFlushes (content : List Char) : Prop :=
  ∀ i (hi : i < (splitOnNl (pyStrip content)).length),
    wordDefTrigger (runLines st0 ((splitOnNl (pyStrip content)).take i))
        ((splitOnNl (pyStrip content)).get ⟨i, hi⟩) →
      safeFlush (runLines st0 ((splitOnNl (pyStrip content)).take i))

instance (content : List Char) : Decidable (safeWordDefFlushes content) := by
  unfold safeWordDefFlushes; infer_instance

/-!  Sanity checks: the matcher models evaluated at the corner cases that
pin down the regex-backtracking semantics, and the parser evaluated on
small blocks.  -/

example : wordMnemonicMatch "Foo - Mnemonic: hello .".data = some ("Foo".data, "hello .".data) := by decide

example : wordMnemonicMatch "Foo -Mnemonic: x".data = some ("Foo".data, "x".data) := by decide

example : wordMnemonicMatch "Foo Bar Baz - Mnemonic: x".data = none := by decide

example : wordDefMatch "Foo - Mnemonics galore".data = some ("Foo".data, " Mnemonics galore".data) := by decide

example : wordDefMatch "Foo - Mnemonic: .".data = some ("Foo".data, " Mnemonic: .".data) := by decide

example : wordDefMatch "Foo -Mnemonic: x".data = none := by decide

example : wordDefMatch "Foo -".data = none := by decide

example : wordDefMatch "Foo Bar- x".data = some ("Foo Bar".data, "x".data) := by decide

example : defSearch "x Definition: y..".data = some "y.".data := by decide

example : defSearch "x Definition:".data = none := by decide

example : defSearch "a Definition: b Definition: c.".data = some "b Definition: c".data := by decide

example : defSearch "x definition:   ".data = some " ".data := by decide

example : defSubKeep "a Definition: b Definition: c.".data = "a".data := by decide

example : groupScanAux 22 "Group 5 x Group 7 y".data =
    ("".data, [(5, " x ".data), (7, " y".data)]) := by decide

example : clean_response_text "Group 3\nAbate - x.".data = "Group 3\nAbate - x.".data := by decide

example : clean_response_text "Group\nOf course. 5\nFoo - bar".data = "Group\n5\nFoo - bar".data := by
  decide

example : parse_response "Group 1\nAbate - to become less intense.".data =
    [⟨1, [⟨"Abate".data, [], "to become less intense".data⟩]⟩] := by decide

example : parse_response "Group 1\nFoo - Mnemonic: .\nBar - nice".data =
    [⟨1, [⟨"Foo".data, [], []⟩, ⟨"Bar".data, [], "nice".data⟩]⟩] := by decide

example : parse_response "Group 1\nFoo - Mnemonic: hello .".data =
    [⟨1, [⟨"Foo".data, "hello ".data, []⟩]⟩] := by decide

example :
    parse_response
      "Group 3\nEbullient - Mnemonic: Sounds like \"bubble-ient,\" bubbling over. Definition: cheerful and full of energy.".data =
    [⟨3, [⟨"Ebullient".data, "Sounds like \"bubble-ient,\" bubbling over".data,
      "cheerful and full of energy".data⟩]⟩] := by decide

example : extractCorpus ["Group 5\nA - x\nGroup 5\nB - y".data] =
    [⟨5, [⟨"A".data, [], "x".data⟩]⟩] := by decide

example : extractCorpus ["Group 5\nA - x".data, "Group 5\nB - y".data] =
    [⟨5, [⟨"A".data, [], "x".data⟩]⟩] := by decide

example : hasGroupMarker "Group\nOf course. 5\nFoo - bar".data = false := by decide

example : parse_response "Group\nOf course. 5\nFoo - bar".data =
    [⟨5, [⟨"Foo".data, [], "bar".data⟩]⟩] := by decide

example : parse_response "no markers here at all".data = [] := by decide

example : escapeHtml "5 < 10 & rising".data = "5 &lt; 10 &amp; rising".data := by decide

example : pyTitle "foo  bar".data = "Foo  Bar".data := by decide

example : pyTitle "ebullient".data = "Ebullient".data := by decide

example :
    (tocBlocks [⟨1, []⟩, ⟨2, []⟩, ⟨3, []⟩, ⟨7, []⟩]).map Prod.snd =
      [[1, 2, 3], [7], [], [], [], [], []] := by decide

example :
    (bodyEpisodes [⟨1, []⟩, ⟨2, []⟩, ⟨3, []⟩, ⟨7, []⟩]).map Episode.groups =
      [List.range' 1 4, List.range' 5 5] := by decide

example : sortGroups [⟨7, []⟩, ⟨2, []⟩, ⟨5, []⟩] = [⟨2, []⟩, ⟨5, []⟩, ⟨7, []⟩] := by decide

theorem addGroup_foldl (gs : List VocabGroup) : ∀ a s,
    gs.foldl addGroup (a, s) = (a ++ dedupF s gs, seenF s gs) := by
  induction gs with
  | nil => intro a s; simp [dedupF, seenF]
  | cons g gs ih =>
    intro a s
    by_cases h : g.number ∈ s
    · simp [addGroup, h, dedupF, seenF, ih]
    · simp [addGroup, h, dedupF, seenF, ih]

theorem seenF_append (xs ys : List VocabGroup) : ∀ s,
    seenF s (xs ++ ys) = seenF (seenF s xs) ys := by
  induction xs with
  | nil => intro s; simp [seenF]
  | cons g gs ih =>
    intro s
    by_cases h : g.number ∈ s <;> simp [seenF, h, ih]

theorem dedupF_append (xs ys : List VocabGroup) : ∀ s,
    dedupF s (xs ++ ys) = dedupF s xs ++ dedupF (seenF s xs) ys := by
  induction xs with
  | nil => intro s; simp [dedupF, seenF]
  | cons g gs ih =>
    intro s
    by_cases h : g.number ∈ s <;> simp [dedupF, seenF, h, ih]

theorem extract_foldl (blocks : List (List Char)) : ∀ a s,
    blocks.foldl (fun ac b => (parse_response b).foldl addGroup ac) (a, s) =
      (a ++ dedupF s (streamOf blocks), seenF s (streamOf blocks)) := by
  induction blocks with
  | nil => intro a s; simp [streamOf, dedupF, seenF]
  | cons b bs ih =>
    intro a s
    have hstream : streamOf (b :: bs) = parse_response b ++ streamOf bs := by
      simp [streamOf]
    rw [List.foldl_cons, addGroup_foldl, ih, hstream, dedupF_append, seenF_append,
      List.append_assoc]

theorem extractCorpus_eq_dedup (blocks : List (List Char)) :
    extractCorpus blocks = dedupF [] (streamOf blocks) := by
  unfold extractCorpus
  rw [extract_foldl]
  simp

theorem dedupF_mem_number {n : Nat} : ∀ (l : List VocabGroup) (s : List Nat),
    n ∈ (dedupF s l).map VocabGroup.number → n ∉ s := by
  intro l
  induction l with
  | nil => intro s h; simp [dedupF] at h
  | cons g gs ih =>
    intro s h
    by_cases hg : g.number ∈ s
    · exact ih s (by simpa [dedupF, hg] using h)
    · simp [dedupF, hg] at h
      rcases h with h | h
      · subst h; exact hg
      · intro hs
        exact ih (g.number :: s) (by simpa using h) (List.mem_cons_of_mem _ hs)

theorem dedupF_nodup : ∀ (l : List VocabGroup) (s : List Nat),
    ((dedupF s l).map VocabGroup.number).Nodup := by
  intro l
  induction l with
  | nil => intro s; simp [dedupF]
  | cons g gs ih =>
    intro s
    by_cases hg : g.number ∈ s
    · simpa [dedupF, hg] using ih s
    · rw [show dedupF s (g :: gs) = g :: dedupF (g.number :: s) gs from by simp [dedupF, hg]]
      simp only [List.map_cons, List.nodup_cons]
      exact ⟨fun hmem => dedupF_mem_number gs (g.number :: s) hmem (by simp), ih _⟩

theorem dedupF_filter (n : Nat) : ∀ (l : List VocabGroup) (s : List Nat),
    (dedupF s l).filter (fun g => g.number == n) =
      if n ∈ s then [] else (l.filter (fun g => g.number == n)).take 1 := by
  intro l
  induction l with
  | nil => intro s; by_cases h : n ∈ s <;> simp [dedupF, h]
  | cons g gs ih =>
    intro s
    by_cases hs : n ∈ s
    · by_cases hg : g.number ∈ s
      · simp [dedupF, hg, ih, hs]
      · have hne : (g.number == n) = false := by
          simp only [beq_eq_false_iff_ne]
          intro he; exact hg (he ▸ hs)
        simp [dedupF, hg, ih, hs, List.filter_cons, hne]
    · by_cases he : g.number = n
      · have hg : g.number ∉ s := fun h => hs (he ▸ h)
        have h2 : n ∈ g.number :: s := by simp [he]
        simp [dedupF, hg, List.filter_cons, he, ih, h2, hs]
      · have hne : (g.number == n) = false := by simpa using he
        by_cases hg : g.number ∈ s
        · simp [dedupF, hg, ih, hs, List.filter_cons, hne]
        · have h2 : n ∉ g.number :: s := by
            simp only [List.mem_cons, not_or]
            exact ⟨fun h => he h.symm, hs⟩
          simp [dedupF, hg, ih, h2, List.filter_cons, hne, hs]

theorem take_one_append {α : Type} (xs ys : List α) (h : xs ≠ []) :
    (xs ++ ys).take 1 = xs.take 1 := by
  cases xs with
  | nil => exact absurd rfl h
  | cons x xt => simp

/-- C3: first-write-wins deduplication.  If `b` is the earliest block
whose parse contains a group numbered `n`, the groups of the corpus numbered
`n` are exactly the first such group parsed from `b`; every later
occurrence of `n` — in the rest of the parse of `b` and in all later blocks —
is ignored in full. -/
theorem C3_first_write_wins (blocks pre post : List (List Char)) (b : List Char) (n : Nat)
    (hb : blocks = pre ++ b :: post)
    (hpre : ∀ b' ∈ pre, n ∉ (parse_response b').map VocabGroup.number)
    (hn : n ∈ (parse_response b).map VocabGroup.number) :
    (extractCorpus blocks).filter (fun g => g.number == n) =
      ((parse_response b).filter (fun g => g.number == n)).take 1 := by
  subst hb
  rw [extractCorpus_eq_dedup, dedupF_filter]
  have hstream : streamOf (pre ++ b :: post) =
      streamOf pre ++ (parse_response b ++ streamOf post) := by
    simp [streamOf]
  rw [if_neg (List.not_mem_nil n), hstream, List.filter_append, List.filter_append]
  have hpre0 : (streamOf pre).filter (fun g => g.number == n) = [] := by
    rw [List.filter_eq_nil_iff]
    intro g hg
    simp only [streamOf, List.mem_flatten] at hg
    obtain ⟨l, hl, hgl⟩ := hg
    obtain ⟨b', hb', rfl⟩ := List.mem_map.1 hl
    simp only [beq_iff_eq]
    intro he
    exact hpre b' hb' (he ▸ List.mem_map_of_mem VocabGroup.number hgl)
  have hbne : (parse_response b).filter (fun g => g.number == n) ≠ [] := by
    obtain ⟨g, hg, rfl⟩ := List.mem_map.1 hn
    intro hcontra
    have := List.filter_eq_nil_iff.1 hcontra g hg
    simp at this
  rw [hpre0, List.nil_append, take_one_append _ _ hbne]

/-- Witness for C3 at a concrete input: two blocks both containing
`Group 5`; only the entries of the first block survive. -/
theorem C3_first_write_wins_witness :
    (extractCorpus ["Group 5\nA - x".data, "Group 5\nB - y".data]).filter
        (fun g => g.number == 5) =
      ((parse_response "Group 5\nA - x".data).filter (fun g => g.number == 5)).take 1 :=
  C3_first_write_wins ["Group 5\nA - x".data, "Group 5\nB - y".data] [] ["Group 5\nB - y".data]
    "Group 5\nA - x".data 5 rfl (by intro b' hb'; simp at hb') (by decide)

/-- C4: every corpus the extraction stage emits has pairwise distinct
group numbers, even when one block contains two `Group 5` sections (the
parse of such a block yields two groups numbered 5, and the seen-set
check in `main` drops the second). -/
theorem C4_unique_numbers :
    (∀ blocks : List (List Char), ((extractCorpus blocks).map VocabGroup.number).Nodup) ∧
    (parse_response "Group 5\nA - x\nGroup 5\nB - y".data).map VocabGroup.number = [5, 5] ∧
    extractCorpus ["Group 5\nA - x\nGroup 5\nB - y".data] =
      [⟨5, [⟨"A".data, [], "x".data⟩]⟩] := by
  refine ⟨fun blocks => ?_, by decide, by decide⟩
  rw [extractCorpus_eq_dedup]
  exact dedupF_nodup _ _

/-- C5: the worked example of the spec.  The line `Ebullient - Mnemonic:
Sounds like "bubble-ient," bubbling over. Definition: cheerful and full
of energy.` inside a `Group 3` section parses to the claimed entry, with
the embedded `Definition:` tail split off and trailing periods stripped
from both parts. -/
theorem C5_ebullient_example :
    parse_response
        "Group 3\nEbullient - Mnemonic: Sounds like \"bubble-ient,\" bubbling over. Definition: cheerful and full of energy.".data =
      [⟨3, [⟨"Ebullient".data, "Sounds like \"bubble-ient,\" bubbling over".data,
        "cheerful and full of energy".data⟩]⟩] := by decide

theorem replaceChar_append (a : Char) (rep : List Char) : ∀ x y : List Char,
    replaceChar a rep (x ++ y) = replaceChar a rep x ++ replaceChar a rep y := by
  intro x y
  induction x with
  | nil => simp [replaceChar]
  | cons c cs ih => simp [replaceChar, ih]

theorem escapeHtml_cons (c : Char) (cs : List Char) :
    escapeHtml (c :: cs) = escChar c ++ escapeHtml cs := by
  show replaceChar '>' "&gt;".data (replaceChar '<' "&lt;".data
      (replaceChar '&' "&amp;".data (c :: cs))) = _
  rw [show replaceChar '&' "&amp;".data (c :: cs) =
      (if c == '&' then "&amp;".data else [c]) ++ replaceChar '&' "&amp;".data cs from rfl]
  rw [replaceChar_append, replaceChar_append]
  suffices h : replaceChar '>' "&gt;".data (replaceChar '<' "&lt;".data
      (if c == '&' then "&amp;".data else [c])) = escChar c by
    rw [h]; rfl
  by_cases h1 : c = '&'
  · subst h1; decide
  · rw [if_neg (by simpa using h1)]
    by_cases h2 : c = '<'
    · subst h2; decide
    · rw [show replaceChar '<' "&lt;".data [c] = [c] from by
        simp [replaceChar, h2]]
      by_cases h3 : c = '>'
      · subst h3; decide
      · rw [show replaceChar '>' "&gt;".data [c] = [c] from by
          simp [replaceChar, h3]]
        simp [escChar, h1, h2, h3]

theorem escapeHtml_eq_escAll : ∀ s : List Char, escapeHtml s = escAll s := by
  intro s
  induction s with
  | nil => rfl
  | cons c cs ih => rw [escapeHtml_cons, ih]; rfl

/-- C7: in every rendered table row, the mnemonic cell and the definition
cell hold the text of the entry escaped by the chain `& → &amp;`, then
`< → &lt;`, then `> → &gt;`; because the ampersand pass runs first, the
chain acts character-wise (entities introduced later are not re-escaped),
and the word cell is inserted title-cased but unescaped.  The concrete
definition `5 < 10 & rising` renders as `5 &lt; 10 &amp; rising`. -/
theorem C7_html_escaping :
    (∀ e : VocabEntry,
      rowHtml e = "            <tr><td>".data ++ pyTitle e.word ++ "</td><td>".data ++
        escAll e.mnemonic ++ "</td><td>".data ++ escAll e.definition ++
        "</td></tr>\n".data) ∧
    escapeHtml "5 < 10 & rising".data = "5 &lt; 10 &amp; rising".data := by
  refine ⟨fun e => ?_, by decide⟩
  rw [rowHtml, escapeHtml_eq_escAll, escapeHtml_eq_escAll]

theorem mem_insertByNumber (g a : VocabGroup) : ∀ l : List VocabGroup,
    a ∈ insertByNumber g l ↔ a = g ∨ a ∈ l := by
  intro l
  induction l with
  | nil => simp [insertByNumber]
  | cons h t ih =>
    by_cases hle : h.number ≤ g.number
    · simp only [insertByNumber, if_pos hle, List.mem_cons, ih]
      tauto
    · simp only [insertByNumber, if_neg hle, List.mem_cons]

theorem mem_sortGroups_aux (l : List VocabGroup) : ∀ (acc : List VocabGroup) (a : VocabGroup),
    a ∈ l.foldl (fun acc g => insertByNumber g acc) acc ↔ a ∈ acc ∨ a ∈ l := by
  induction l with
  | nil => simp
  | cons g gs ih =>
    intro acc a
    rw [List.foldl_cons, ih, mem_insertByNumber]
    simp only [List.mem_cons]
    tauto

theorem mem_sortGroups (l : List VocabGroup) (a : VocabGroup) :
    a ∈ sortGroups l ↔ a ∈ l := by
  rw [sortGroups, mem_sortGroups_aux]
  simp

theorem inLookup_iff (corpus : List VocabGroup) (n : Nat) :
    inLookup corpus n = true ↔ n ∈ corpus.map VocabGroup.number := by
  unfold inLookup dictGet
  rw [Option.isSome_iff_exists]
  constructor
  · rintro ⟨g, hg⟩
    have hmem := List.mem_of_mem_getLast? hg
    have := List.mem_filter.1 hmem
    rw [List.mem_map]
    exact ⟨g, (mem_sortGroups _ _).1 this.1, by simpa using this.2⟩
  · intro h
    obtain ⟨g, hg, rfl⟩ := List.mem_map.1 h
    have hf : g ∈ (sortGroups corpus).filter (fun x => x.number == g.number) :=
      List.mem_filter.2 ⟨(mem_sortGroups _ _).2 hg, by simp⟩
    have hne := List.ne_nil_of_mem hf
    exact Option.isSome_iff_exists.1 (List.getLast?_isSome.2 hne)

theorem episodeGroups_eq_nil_iff (corpus : List VocabGroup) (ep : Episode) :
    episodeGroups corpus ep = [] ↔ tocLinks corpus ep = [] := by
  unfold episodeGroups tocLinks inLookup
  rw [List.filterMap_eq_nil_iff, List.filter_eq_nil_iff]
  constructor
  · intro h n hn
    simp [h n hn]
  · intro h n hn
    have h2 := h n hn
    cases hd : dictGet (sortGroups corpus) n with
    | none => rfl
    | some g => rw [hd] at h2; simp at h2

/-- C8: the rendered table of contents has one block per each of the
seven fixed episodes, and the block of each episode links exactly to the group
numbers of its range present in the corpus; an episode whose range
resolves to no group keeps its (empty) TOC block but is dropped from the
body.  For groups {1,2,3,7}, Episode 1 links to 1,2,3 and Episode 2 only
to 7, and only those two episodes get body sections. -/
theorem C8_toc_structure :
    (∀ corpus : List VocabGroup,
      (tocBlocks corpus).map Prod.fst = episodes ∧
      (tocBlocks corpus).length = 7 ∧
      (∀ ep n, n ∈ tocLinks corpus ep ↔
        (n ∈ ep.groups ∧ n ∈ corpus.map VocabGroup.number)) ∧
      (∀ ep ∈ episodes, (ep, tocLinks corpus ep) ∈ tocBlocks corpus) ∧
      (∀ ep, tocLinks corpus ep = [] → ep ∉ bodyEpisodes corpus)) ∧
    (tocBlocks [⟨1, []⟩, ⟨2, []⟩, ⟨3, []⟩, ⟨7, []⟩]).map Prod.snd =
      [[1, 2, 3], [7], [], [], [], [], []] ∧
    bodyEpisodes [⟨1, []⟩, ⟨2, []⟩, ⟨3, []⟩, ⟨7, []⟩] = episodes.take 2 := by
  refine ⟨fun corpus => ⟨rfl, rfl, ?_, ?_, ?_⟩, by decide, by decide⟩
  · intro ep n
    rw [tocLinks, List.mem_filter, inLookup_iff]
  · intro ep hep
    rw [tocBlocks, List.mem_map]
    exact ⟨ep, hep, rfl⟩
  · intro ep hlinks hbody
    rw [bodyEpisodes, List.mem_filter] at hbody
    have h0 : episodeGroups corpus ep = [] := (episodeGroups_eq_nil_iff corpus ep).2 hlinks
    rw [h0] at hbody
    simp at hbody

/-- Witness for C8 at a concrete corpus and episode: Episode 3's range
has no group in the corpus {1,2,3,7}, so its TOC block carries the empty
link list while the episode is absent from the body. -/
theorem C8_toc_structure_witness :
    (⟨"Episode 3: Groups 10â€“14", "Advanced concepts", List.range' 10 5⟩,
        ([] : List Nat)) ∈ tocBlocks [⟨1, []⟩, ⟨2, []⟩, ⟨3, []⟩, ⟨7, []⟩] ∧
    (⟨"Episode 3: Groups 10â€“14", "Advanced concepts", List.range' 10 5⟩ : Episode) ∉
      bodyEpisodes [⟨1, []⟩, ⟨2, []⟩, ⟨3, []⟩, ⟨7, []⟩] := by
  have h := (C8_toc_structure.1 [⟨1, []⟩, ⟨2, []⟩, ⟨3, []⟩, ⟨7, []⟩])
  refine ⟨?_, ?_⟩
  · have := h.2.2.2.1 ⟨"Episode 3: Groups 10â€“14", "Advanced concepts", List.range' 10 5⟩
      (by decide)
    simpa [show tocLinks [⟨1, []⟩, ⟨2, []⟩, ⟨3, []⟩, ⟨7, []⟩]
        ⟨"Episode 3: Groups 10â€“14", "Advanced concepts", List.range' 10 5⟩ = [] from by decide]
      using this
  · exact h.2.2.2.2 ⟨"Episode 3: Groups 10â€“14", "Advanced concepts", List.range' 10 5⟩
      (by decide)

theorem head?_dropWhile {p : Char → Bool} : ∀ (l : List Char) (c : Char),
    (l.dropWhile p).head? = some c → p c = false := by
  intro l
  induction l with
  | nil => intro c h; simp [List.dropWhile] at h
  | cons a t ih =>
    intro c h
    by_cases hpa : p a = true
    · exact ih c (by simpa [List.dropWhile, hpa] using h)
    · rw [List.dropWhile_cons_of_neg hpa] at h
      simp only [List.head?_cons, Option.some_inj] at h
      subst h
      simpa using hpa

theorem revDropWhile_isPrefix (p : Char → Bool) (l : List Char) :
    (l.reverse.dropWhile p).reverse <+: l := by
  have h : l.reverse.dropWhile p <:+ l.reverse := List.dropWhile_suffix p
  have h2 := List.reverse_prefix.2 h
  rwa [List.reverse_reverse] at h2

theorem isPrefix_head? {α : Type} {l₁ l₂ : List α} (h : l₁ <+: l₂) (hne : l₁ ≠ []) :
    l₁.head? = l₂.head? := by
  obtain ⟨t, rfl⟩ := h
  cases l₁ with
  | nil => exact absurd rfl hne
  | cons a l => rfl

theorem rstripPeriods_isPrefix (l : List Char) : rstripPeriods l <+: l :=
  revDropWhile_isPrefix _ l

theorem rstripWS_isPrefix (l : List Char) : rstripWS l <+: l :=
  revDropWhile_isPrefix _ l

theorem noTrailDot_rstripPeriods (x : List Char) : noTrailDot (rstripPeriods x) = true := by
  unfold noTrailDot rstripPeriods
  cases h : (x.reverse.dropWhile fun c => c == '.').reverse.getLast? with
  | none => rfl
  | some c =>
    rw [List.getLast?_reverse] at h
    have := head?_dropWhile _ c h
    simpa using this

theorem noLeadWS_rstripPeriods_pyStrip (x : List Char) :
    noLeadWS (rstripPeriods (pyStrip x)) = true := by
  unfold noLeadWS
  cases h : (rstripPeriods (pyStrip x)).head? with
  | none => rfl
  | some c =>
    have hne : rstripPeriods (pyStrip x) ≠ [] := by
      intro h0; rw [h0] at h; simp at h
    have h1 : (rstripPeriods (pyStrip x)).head? = (pyStrip x).head? :=
      isPrefix_head? (rstripPeriods_isPrefix _) hne
    have hne2 : pyStrip x ≠ [] := by
      intro h0
      rw [h1, h0] at h; simp at h
    have h2 : (pyStrip x).head? = (lstripWS x).head? :=
      isPrefix_head? (rstripWS_isPrefix (lstripWS x)) hne2
    have h3 : (lstripWS x).head? = some c := by rw [← h2, ← h1, h]
    have h4 := head?_dropWhile (p := fun c => isSpaceChar c) x c h3
    simp [h4]

theorem tidyStr_nil : tidyStr [] := ⟨rfl, rfl⟩

theorem tidyStr_shape (x : List Char) : tidyStr (rstripPeriods (pyStrip x)) :=
  ⟨noLeadWS_rstripPeriods_pyStrip x, noTrailDot_rstripPeriods (pyStrip x)⟩

theorem tidyOpt_getD {o : Option (List Char)} (h : tidyOpt o) : tidyStr (o.getD []) := by
  cases o with
  | none => exact tidyStr_nil
  | some s => exact h s rfl

theorem tidyOpt_none : tidyOpt none := by intro s h; cases h

theorem tidyOpt_some {s : List Char} (h : tidyStr s) : tidyOpt (some s) := by
  intro s' h'
  cases h'
  exact h

theorem tidySt_mkEntry {st : PState} (h : tidySt st) :
    tidyStr (mkEntry st).mnemonic ∧ tidyStr (mkEntry st).definition :=
  ⟨tidyOpt_getD h.1, tidyOpt_getD h.2.1⟩

theorem tidySt_step (st : PState) (rawLine : List Char) (h : tidySt st) :
    tidySt (stepLine st rawLine) := by
  obtain ⟨hm, hd, hes⟩ := h
  unfold stepLine
  cases hemp : (pyStrip rawLine).isEmpty with
  | true => simpa [hemp] using ⟨hm, hd, hes⟩
  | false =>
    simp only [hemp, Bool.false_eq_true, if_false]
    have hflush : ∀ e ∈ (if flushGuard st then st.entries ++ [mkEntry st] else st.entries),
        tidyStr e.mnemonic ∧ tidyStr e.definition := by
      by_cases hg : flushGuard st
      · simp only [hg, if_true, List.mem_append, List.mem_singleton]
        rintro e (he | rfl)
        · exact hes e he
        · exact tidySt_mkEntry ⟨hm, hd, hes⟩
      · simpa [hg] using hes
    cases hwm : wordMnemonicMatch (pyStrip rawLine) with
    | some p =>
      obtain ⟨w, g2⟩ := p
      cases hds : defSearch (pyStrip g2) with
      | some d =>
        simp only [hds]
        exact ⟨tidyOpt_some (tidyStr_shape _), tidyOpt_some (tidyStr_shape _), hflush⟩
      | none =>
        simp only [hds]
        exact ⟨tidyOpt_some (tidyStr_shape g2), tidyOpt_none, hflush⟩
    | none =>
      by_cases hpm : startsWithCI "mnemonic:".data (pyStrip rawLine) = true
      · simp only [hpm, if_true]
        exact ⟨tidyOpt_some (tidyStr_shape _), hd, hes⟩
      · simp only [hpm, if_false]
        by_cases hpd : startsWithCI "definition:".data (pyStrip rawLine) = true
        · simp only [hpd, if_true]
          exact ⟨hm, tidyOpt_some (tidyStr_shape _), hes⟩
        · simp only [hpd, if_false]
          cases hwd : wordDefMatch (pyStrip rawLine) with
          | some p =>
            obtain ⟨w, t⟩ := p
            by_cases hwn : st.word.isNone = true
            · simp only [hwn, if_true]
              exact ⟨tidyOpt_none, tidyOpt_some (tidyStr_shape _), hflush⟩
            · simp only [hwn, if_false]
              refine ⟨tidyOpt_none, tidyOpt_some (tidyStr_shape _), ?_⟩
              intro e he
              change e ∈ st.entries ++ [mkEntry st] at he
              simp only [List.mem_append, List.mem_singleton] at he
              rcases he with he | rfl
              · exact hes e he
              · exact tidySt_mkEntry ⟨hm, hd, hes⟩
          | none => exact ⟨hm, hd, hes⟩

theorem tidySt_runLines (lines : List (List Char)) : ∀ st : PState,
    tidySt st → tidySt (runLines st lines) := by
  induction lines with
  | nil => intro st h; exact h
  | cons l ls ih =>
    intro st h
    exact ih (stepLine st l) (tidySt_step st l h)

theorem parseEntries_tidy (content : List Char) :
    ∀ e ∈ parseEntries content, tidyStr e.mnemonic ∧ tidyStr e.definition := by
  intro e he
  have hrun : tidySt (runLines st0 (splitOnNl (pyStrip content))) :=
    tidySt_runLines _ st0 ⟨tidyOpt_none, tidyOpt_none, by intro e h; simp [st0] at h⟩
  obtain ⟨hm, hd, hes⟩ := hrun
  unfold parseEntries finalizeEntries at he
  by_cases hg : flushGuard (runLines st0 (splitOnNl (pyStrip content)))
  · simp only [hg, if_true, List.mem_append, List.mem_singleton] at he
    rcases he with he | rfl
    · exact hes e he
    · exact tidySt_mkEntry ⟨hm, hd, hes⟩
  · rw [if_neg hg] at he
    exact hes e he

theorem dedupF_subset : ∀ (l : List VocabGroup) (s : List Nat), dedupF s l ⊆ l := by
  intro l
  induction l with
  | nil => intro s; simp [dedupF]
  | cons g gs ih =>
    intro s a ha
    by_cases hg : g.number ∈ s
    · exact List.mem_cons_of_mem _ (ih s (by simpa [dedupF, hg] using ha))
    · simp only [dedupF, hg, if_false, List.mem_cons] at ha
      rcases ha with rfl | ha
      · exact List.mem_cons_self _ _
      · exact List.mem_cons_of_mem _ (ih _ ha)

theorem mem_extractCorpus {blocks : List (List Char)} {g : VocabGroup}
    (h : g ∈ extractCorpus blocks) : ∃ b ∈ blocks, g ∈ parse_response b := by
  rw [extractCorpus_eq_dedup] at h
  have h2 := dedupF_subset _ _ h
  simp only [streamOf, List.mem_flatten] at h2
  obtain ⟨l, hl, hgl⟩ := h2
  obtain ⟨b, hb, rfl⟩ := List.mem_map.1 hl
  exact ⟨b, hb, hgl⟩

theorem mem_parse_response {t : List Char} {g : VocabGroup}
    (h : g ∈ parse_response t) :
    ∃ p ∈ groupPairs t, g = ⟨p.1, parseEntries p.2⟩ := by
  unfold parse_response at h
  obtain ⟨p, hp, hf⟩ := List.mem_filterMap.1 h
  refine ⟨p, hp, ?_⟩
  by_cases he : (parseEntries p.2).isEmpty
  · rw [if_pos he] at hf; cases hf
  · rw [if_neg he] at hf
    exact (Option.some_inj.1 hf).symm

/-- C2 (amended): every retained mnemonic and definition has no leading
whitespace and does not end in a period — but trailing whitespace can
survive: both fields are produced as `strip()` followed by
`rstrip('.')`, so stripping the periods can expose whitespace that stood
before them (e.g. `Foo - Mnemonic: hello .` retains the mnemonic
`"hello "`). -/
theorem C2_amended_trimming (blocks : List (List Char)) (g : VocabGroup) (e : VocabEntry)
    (hg : g ∈ extractCorpus blocks) (he : e ∈ g.entries) :
    noLeadWS e.mnemonic = true ∧ noTrailDot e.mnemonic = true ∧
      noLeadWS e.definition = true ∧ noTrailDot e.definition = true := by
  obtain ⟨b, _, hgb⟩ := mem_extractCorpus hg
  obtain ⟨p, _, rfl⟩ := mem_parse_response hgb
  have := parseEntries_tidy p.2 e he
  exact ⟨this.1.1, this.1.2, this.2.1, this.2.2⟩

/-- Counterexample to C2 as stated: the retained mnemonic of
`Foo - Mnemonic: hello .` is `"hello "`, which carries trailing
whitespace (`rstrip('.')` runs after `strip()` and exposes it). -/
theorem C2_counterexample :
    ∃ g ∈ extractCorpus ["Group 1\nFoo - Mnemonic: hello .".data],
      ∃ e ∈ g.entries, e.mnemonic = "hello ".data ∧ e.mnemonic.getLast? = some ' ' := by
  decide

/-- Witness for C2 (amended) at the Abate example block. -/
theorem C2_amended_trimming_witness :
    noLeadWS (⟨"Abate".data, [], "to become less intense".data⟩ : VocabEntry).mnemonic = true ∧
      noTrailDot (⟨"Abate".data, [], "to become less intense".data⟩ : VocabEntry).mnemonic = true ∧
      noLeadWS (⟨"Abate".data, [], "to become less intense".data⟩ : VocabEntry).definition = true ∧
      noTrailDot (⟨"Abate".data, [], "to become less intense".data⟩ : VocabEntry).definition = true :=
  C2_amended_trimming ["Group 1\nAbate - to become less intense.".data]
    ⟨1, [⟨"Abate".data, [], "to become less intense".data⟩]⟩
    ⟨"Abate".data, [], "to become less intense".data⟩ (by decide) (by decide)

theorem goodWord_nil : goodWord [] := by intro c hc; simp at hc

theorem goodWord_subset {s t : List Char} (hsub : s ⊆ t) (h : goodWord t) : goodWord s :=
  fun c hc => h c (hsub hc)

theorem pyStrip_subset (s : List Char) : pyStrip s ⊆ s := by
  intro c hc
  unfold pyStrip rstripWS at hc
  rw [List.mem_reverse] at hc
  have h1 := (List.dropWhile_sublist (fun c => isSpaceChar c)).subset hc
  rw [List.mem_reverse] at h1
  exact (List.dropWhile_sublist (fun c => isSpaceChar c)).subset h1

theorem wordTokens_good : ∀ (line w r : List Char),
    wordTokens line = some (w, r) → goodWord w := by
  intro line w r h
  simp only [wordTokens] at h
  split at h
  · cases h
  · split at h
    · cases h
      intro c hc
      rcases List.mem_append.1 hc with hc | hc
      · rcases List.mem_append.1 hc with hc | hc
        · have := List.mem_takeWhile_imp hc
          simp [goodChar, this]
        · have := List.mem_takeWhile_imp hc
          simp [goodChar, this]
      · have := List.mem_takeWhile_imp hc
        simp [goodChar, this]
    · cases h
      intro c hc
      have := List.mem_takeWhile_imp hc
      simp [goodChar, this]

theorem wordMnemonicMatch_good {l w g : List Char}
    (h : wordMnemonicMatch l = some (w, g)) : goodWord w := by
  cases hwt : wordTokens l with
  | none => simp [wordMnemonicMatch, hwt] at h
  | some p =>
    obtain ⟨w', rest⟩ := p
    have hgw := wordTokens_good l w' rest hwt
    simp only [wordMnemonicMatch, hwt] at h
    split at h
    · split at h
      · cases h
      · split at h
        · cases h; exact hgw
        · split at h
          · cases h
          · cases h; exact hgw
    · cases h

theorem wordDefMatch_good {l w g : List Char}
    (h : wordDefMatch l = some (w, g)) : goodWord w := by
  cases hwt : wordTokens l with
  | none => simp [wordDefMatch, hwt] at h
  | some p =>
    obtain ⟨w', rest⟩ := p
    have hgw := wordTokens_good l w' rest hwt
    simp only [wordDefMatch, hwt] at h
    split at h
    · split at h
      · cases h; exact hgw
      · split at h
        · cases h
        · cases h; exact hgw
    · cases h

theorem goodOpt_getD {o : Option (List Char)} (h : goodOpt o) : goodWord (o.getD []) := by
  cases o with
  | none => exact goodWord_nil
  | some s => exact h s rfl

theorem goodOpt_none : goodOpt none := by intro s h; cases h

theorem goodOpt_some {s : List Char} (h : goodWord s) : goodOpt (some s) := by
  intro s' h'; cases h'; exact h

theorem goodSt_step (st : PState) (rawLine : List Char) (h : goodSt st) :
    goodSt (stepLine st rawLine) := by
  obtain ⟨hw, hes⟩ := h
  unfold stepLine
  cases hemp : (pyStrip rawLine).isEmpty with
  | true => simpa [hemp] using ⟨hw, hes⟩
  | false =>
    simp only [hemp, Bool.false_eq_true, if_false]
    have hflush : ∀ e ∈ (if flushGuard st then st.entries ++ [mkEntry st] else st.entries),
        goodWord e.word := by
      by_cases hg : flushGuard st
      · simp only [hg, if_true, List.mem_append, List.mem_singleton]
        rintro e (he | rfl)
        · exact hes e he
        · exact goodOpt_getD hw
      · simpa [hg] using hes
    cases hwm : wordMnemonicMatch (pyStrip rawLine) with
    | some p =>
      obtain ⟨w, g2⟩ := p
      have hgw : goodWord (pyStrip w) :=
        goodWord_subset (pyStrip_subset w) (wordMnemonicMatch_good hwm)
      cases hds : defSearch (pyStrip g2) with
      | some d =>
        simp only [hds]
        exact ⟨goodOpt_some hgw, hflush⟩
      | none =>
        simp only [hds]
        exact ⟨goodOpt_some hgw, hflush⟩
    | none =>
      by_cases hpm : startsWithCI "mnemonic:".data (pyStrip rawLine) = true
      · simp only [hpm, if_true]
        exact ⟨hw, hes⟩
      · simp only [hpm, if_false]
        by_cases hpd : startsWithCI "definition:".data (pyStrip rawLine) = true
        · simp only [hpd, if_true]
          exact ⟨hw, hes⟩
        · simp only [hpd, if_false]
          cases hwd : wordDefMatch (pyStrip rawLine) with
          | some p =>
            obtain ⟨w, t⟩ := p
            have hgw : goodWord (pyStrip w) :=
              goodWord_subset (pyStrip_subset w) (wordDefMatch_good hwd)
            by_cases hwn : st.word.isNone = true
            · simp only [hwn, if_true]
              exact ⟨goodOpt_some hgw, hflush⟩
            · simp only [hwn, if_false]
              refine ⟨goodOpt_some hgw, ?_⟩
              intro e he
              change e ∈ st.entries ++ [mkEntry st] at he
              simp only [List.mem_append, List.mem_singleton] at he
              rcases he with he | rfl
              · exact hes e he
              · exact goodOpt_getD hw
          | none => exact ⟨hw, hes⟩

theorem goodSt_runLines (lines : List (List Char)) : ∀ st : PState,
    goodSt st → goodSt (runLines st lines) := by
  induction lines with
  | nil => intro st h; exact h
  | cons l ls ih =>
    intro st h
    exact ih (stepLine st l) (goodSt_step st l h)

theorem parseEntries_goodWord (content : List Char) :
    ∀ e ∈ parseEntries content, goodWord e.word := by
  intro e he
  have hrun : goodSt (runLines st0 (splitOnNl (pyStrip content))) :=
    goodSt_runLines _ st0 ⟨goodOpt_none, by intro e h; simp [st0] at h⟩
  obtain ⟨hw, hes⟩ := hrun
  unfold parseEntries finalizeEntries at he
  by_cases hg : flushGuard (runLines st0 (splitOnNl (pyStrip content)))
  · simp only [hg, if_true, List.mem_append, List.mem_singleton] at he
    rcases he with he | rfl
    · exact hes e he
    · exact goodOpt_getD hw
  · rw [if_neg hg] at he
    exact hes e he

theorem goodChar_okOut {c : Char} (h : goodChar c = true) : okOut c := by
  refine ⟨?_, ?_, ?_⟩ <;> intro he <;> subst he <;> simp [goodChar, isAsciiAlpha, isSpaceChar] at h

theorem upChar_okOut {c : Char} (h : okOut c) : okOut (upChar c) := by
  unfold upChar
  split <;> first | exact ⟨by decide, by decide, by decide⟩ | exact h

theorem loChar_okOut {c : Char} (h : okOut c) : okOut (loChar c) := by
  unfold loChar
  split <;> first | exact ⟨by decide, by decide, by decide⟩ | exact h

theorem pyTitleAux_okOut : ∀ (s : List Char) (b : Bool),
    (∀ c ∈ s, goodChar c = true) → ∀ c ∈ pyTitleAux b s, okOut c := by
  intro s
  induction s with
  | nil => intro b _ c hc; simp [pyTitleAux] at hc
  | cons a t ih =>
    intro b hgood c hc
    simp only [pyTitleAux, List.mem_cons] at hc
    rcases hc with rfl | hc
    · have ha := goodChar_okOut (hgood a (by simp))
      by_cases hA : isAsciiAlpha a = true
      · rw [if_pos hA]
        by_cases hb : b = true
        · rw [if_pos hb]; exact loChar_okOut ha
        · rw [if_neg hb]; exact upChar_okOut ha
      · rw [if_neg hA]; exact ha
    · exact ih (isAsciiAlpha a) (fun c hc => hgood c (by simp [hc])) c hc

/-- C10: every retained word consists solely of ASCII letters and
whitespace (the shape enforced by the word-capture regexes), so the
title-cased word that `generate_html` inserts into its table cell
unescaped can contain none of `&`, `<`, `>`. -/
theorem C10_word_markup_safety (blocks : List (List Char)) (g : VocabGroup) (e : VocabEntry)
    (hg : g ∈ extractCorpus blocks) (he : e ∈ g.entries) :
    (∀ c ∈ e.word, (isAsciiAlpha c || isSpaceChar c) = true) ∧
      '&' ∉ pyTitle e.word ∧ '<' ∉ pyTitle e.word ∧ '>' ∉ pyTitle e.word := by
  obtain ⟨b, _, hgb⟩ := mem_extractCorpus hg
  obtain ⟨p, _, rfl⟩ := mem_parse_response hgb
  have hgood := parseEntries_goodWord p.2 e he
  have hok := pyTitleAux_okOut e.word false hgood
  refine ⟨hgood, ?_, ?_, ?_⟩ <;> intro hmem
  · exact (hok '&' hmem).1 rfl
  · exact (hok '<' hmem).2.1 rfl
  · exact (hok '>' hmem).2.2 rfl

/-- Witness for C10 at the Ebullient example. -/
theorem C10_word_markup_safety_witness :
    (∀ c ∈ "Abate".data, (isAsciiAlpha c || isSpaceChar c) = true) ∧
      '&' ∉ pyTitle "Abate".data ∧ '<' ∉ pyTitle "Abate".data ∧ '>' ∉ pyTitle "Abate".data :=
  C10_word_markup_safety ["Group 1\nAbate - to become less intense.".data]
    ⟨1, [⟨"Abate".data, [], "to become less intense".data⟩]⟩
    ⟨"Abate".data, [], "to become less intense".data⟩ (by decide) (by decide)

theorem truthyO_ne {o : Option (List Char)} (h : truthyO o = true) : o.getD [] ≠ [] := by
  cases o with
  | none => simp [truthyO] at h
  | some s => simpa [truthyO] using h

theorem mkEntry_ne {st : PState} (h : truthyO st.mnemonic = true ∨ truthyO st.definition = true) :
    (mkEntry st).mnemonic ≠ [] ∨ (mkEntry st).definition ≠ [] := by
  rcases h with h | h
  · exact Or.inl (truthyO_ne h)
  · exact Or.inr (truthyO_ne h)

theorem mkEntry_ne_of_guard {st : PState} (h : flushGuard st = true) :
    (mkEntry st).mnemonic ≠ [] ∨ (mkEntry st).definition ≠ [] := by
  unfold flushGuard at h
  rw [Bool.and_eq_true, Bool.or_eq_true] at h
  exact mkEntry_ne h.2.symm

theorem entriesNE_step (st : PState) (rawLine : List Char)
    (hsafe : wordDefTrigger st rawLine → safeFlush st)
    (h : ∀ e ∈ st.entries, e.mnemonic ≠ [] ∨ e.definition ≠ []) :
    ∀ e ∈ (stepLine st rawLine).entries, e.mnemonic ≠ [] ∨ e.definition ≠ [] := by
  unfold stepLine
  cases hemp : (pyStrip rawLine).isEmpty with
  | true => simpa [hemp] using h
  | false =>
    simp only [hemp, Bool.false_eq_true, if_false]
    have hflush : ∀ e ∈ (if flushGuard st then st.entries ++ [mkEntry st] else st.entries),
        e.mnemonic ≠ [] ∨ e.definition ≠ [] := by
      by_cases hg : flushGuard st
      · simp only [hg, if_true, List.mem_append, List.mem_singleton]
        rintro e (he | rfl)
        · exact h e he
        · exact mkEntry_ne_of_guard hg
      · simpa [hg] using h
    cases hwm : wordMnemonicMatch (pyStrip rawLine) with
    | some p =>
      obtain ⟨w, g2⟩ := p
      cases hds : defSearch (pyStrip g2) with
      | some d => simp only [hds]; exact hflush
      | none => simp only [hds]; exact hflush
    | none =>
      by_cases hpm : startsWithCI "mnemonic:".data (pyStrip rawLine) = true
      · simp only [hpm, if_true]; exact h
      · simp only [hpm, if_false]
        by_cases hpd : startsWithCI "definition:".data (pyStrip rawLine) = true
        · simp only [hpd, if_true]; exact h
        · simp only [hpd, if_false]
          cases hwd : wordDefMatch (pyStrip rawLine) with
          | some p =>
            obtain ⟨w, t⟩ := p
            by_cases hwn : st.word.isNone = true
            · simp only [hwn, if_true]; exact hflush
            · simp only [hwn, if_false]
              have htrig : wordDefTrigger st rawLine := by
                refine ⟨hemp, hwm, ?_, ?_, by simp [hwd], ?_⟩
                · simpa using hpm
                · simpa using hpd
                · exact Bool.eq_false_iff.mpr hwn
              have hne := mkEntry_ne (hsafe htrig)
              intro e he
              change e ∈ st.entries ++ [mkEntry st] at he
              simp only [List.mem_append, List.mem_singleton] at he
              rcases he with he | rfl
              · exact h e he
              · exact hne
          | none => exact h

theorem entriesNE_runLines : ∀ (lines : List (List Char)) (st : PState),
    (∀ i (hi : i < lines.length),
        wordDefTrigger (runLines st (lines.take i)) (lines.get ⟨i, hi⟩) →
          safeFlush (runLines st (lines.take i))) →
    (∀ e ∈ st.entries, e.mnemonic ≠ [] ∨ e.definition ≠ []) →
    ∀ e ∈ (runLines st lines).entries, e.mnemonic ≠ [] ∨ e.definition ≠ [] := by
  intro lines
  induction lines with
  | nil => intro st _ h; exact h
  | cons l ls ih =>
    intro st H h
    have h0 : wordDefTrigger st l → safeFlush st := by
      have := H 0 (by simp)
      simpa [runLines] using this
    have Hls : ∀ i (hi : i < ls.length),
        wordDefTrigger (runLines (stepLine st l) (ls.take i)) (ls.get ⟨i, hi⟩) →
          safeFlush (runLines (stepLine st l) (ls.take i)) := by
      intro i hi
      have := H (i + 1) (by simpa using Nat.succ_lt_succ hi)
      simpa [runLines, List.take_succ_cons] using this
    exact ih (stepLine st l) Hls (entriesNE_step st l h0 h)

theorem parseEntries_NE (content : List Char) (H : safeWordDefFlushes content) :
    ∀ e ∈ parseEntries content, e.mnemonic ≠ [] ∨ e.definition ≠ [] := by
  intro e he
  have hrun := entriesNE_runLines (splitOnNl (pyStrip content)) st0 H
    (by intro e h; simp [st0] at h)
  unfold parseEntries finalizeEntries at he
  by_cases hg : flushGuard (runLines st0 (splitOnNl (pyStrip content)))
  · simp only [hg, if_true, List.mem_append, List.mem_singleton] at he
    rcases he with he | rfl
    · exact hrun e he
    · exact mkEntry_ne_of_guard hg
  · rw [if_neg hg] at he
    exact hrun e he

/-- C1 (amended): a retained entry always has a non-empty mnemonic or
definition PROVIDED no `<word> - <text>` line is processed while the
in-progress entry has an empty mnemonic and unset/empty definition; the
flush on that branch (source lines 156–162) appends unconditionally,
unlike the two guarded flush sites, so in that remaining case an entry
with both fields empty is retained. -/
theorem C1_amended_nonempty (blocks : List (List Char))
    (H : ∀ b ∈ blocks, ∀ p ∈ groupPairs b, safeWordDefFlushes p.2) :
    ∀ g ∈ extractCorpus blocks, ∀ e ∈ g.entries,
      e.mnemonic ≠ [] ∨ e.definition ≠ [] := by
  intro g hg e he
  obtain ⟨b, hb, hgb⟩ := mem_extractCorpus hg
  obtain ⟨p, hp, rfl⟩ := mem_parse_response hgb
  exact parseEntries_NE p.2 (H b hb p hp) e he

/-- Counterexample to C1 as stated, at the very scenario the claim describes: in
`Group 1` / `Foo - Mnemonic: .` / `Bar - nice`, the mnemonic of `Foo`
strips to the empty string, the following word-definition line flushes
the in-progress entry unconditionally, and the corpus retains an entry
whose mnemonic and definition are both empty. -/
theorem C1_counterexample :
    ∃ g ∈ extractCorpus ["Group 1\nFoo - Mnemonic: .\nBar - nice".data],
      ∃ e ∈ g.entries, e.word = "Foo".data ∧ e.mnemonic = [] ∧ e.definition = [] := by
  decide

/-- Witness for C1 (amended): a block whose word-definition line arrives
while the in-progress entry has the non-empty mnemonic `great`. -/
theorem C1_amended_nonempty_witness :
    (⟨"Foo".data, "great".data, []⟩ : VocabEntry).mnemonic ≠ [] ∨
      (⟨"Foo".data, "great".data, []⟩ : VocabEntry).definition ≠ [] :=
  C1_amended_nonempty ["Group 1\nFoo - Mnemonic: great\nBar - nice".data]
    (by decide)
    ⟨1, [⟨"Foo".data, "great".data, []⟩, ⟨"Bar".data, [], "nice".data⟩]⟩ (by decide)
    ⟨"Foo".data, "great".data, []⟩ (by decide)

/-- C6: handling of `<word> - <text>` lines the word-definition regex
matches (and nothing earlier in the `elif` chain does).  The line
`Abate - to become less intense.` with no in-progress entry yields the
entry with word `Abate`, empty mnemonic and definition `to become less
intense` (the in-progress mnemonic is Python `None`, rendered as the
empty string when the entry is flushed); in general such a line starts a
new entry with the captured word and the stripped, period-stripped text
as definition, first flushing any in-progress entry. -/
theorem C6_word_def_line :
    (parse_response "Group 1\nAbate - to become less intense.".data =
      [⟨1, [⟨"Abate".data, [], "to become less intense".data⟩]⟩]) ∧
    (∀ (st : PState) (l w t : List Char),
      (pyStrip l).isEmpty = false →
      wordMnemonicMatch (pyStrip l) = none →
      startsWithCI "mnemonic:".data (pyStrip l) = false →
      startsWithCI "definition:".data (pyStrip l) = false →
      wordDefMatch (pyStrip l) = some (w, t) →
      (st.word = none →
        stepLine st l =
          ⟨some (pyStrip w), none, some (rstripPeriods (pyStrip t)), st.entries⟩) ∧
      (st.word ≠ none →
        stepLine st l =
          ⟨some (pyStrip w), none, some (rstripPeriods (pyStrip t)),
            st.entries ++ [mkEntry st]⟩)) := by
  refine ⟨by decide, fun st l w t hemp hwm hpm hpd hwd => ⟨fun hw => ?_, fun hw => ?_⟩⟩
  · have hguard : flushGuard st = false := by
      simp [flushGuard, truthyO, hw]
    unfold stepLine
    simp [hemp, hwm, hpm, hpd, hwd, hw, hguard]
  · have hwn : st.word.isNone = false := by
      cases hword : st.word with
      | none => exact absurd hword hw
      | some s => rfl
    unfold stepLine
    simp [hemp, hwm, hpm, hpd, hwd, hwn]

/-- Witness for C6 at the Abate line from the empty state. -/
theorem C6_word_def_line_witness :
    stepLine st0 "Abate - to become less intense.".data =
      ⟨some (pyStrip "Abate".data), none,
        some (rstripPeriods (pyStrip "to become less intense.".data)), st0.entries⟩ :=
  (C6_word_def_line.2 st0 "Abate - to become less intense.".data "Abate".data
    "to become less intense.".data (by decide) (by decide) (by decide) (by decide)
    (by decide)).1 rfl

theorem groupScanAux_no_marker : ∀ (fuel : Nat) (s : List Char),
    hasGroupMarker s = false → groupScanAux fuel s = (s, []) := by
  intro fuel
  induction fuel with
  | zero => intro s _; rfl
  | succ n ih =>
    intro s h
    cases s with
    | nil => rfl
    | cons c cs =>
      simp only [hasGroupMarker, Bool.or_eq_false_iff] at h
      cases htry : tryGroupMarker (c :: cs) with
      | some p => rw [htry] at h; simp at h
      | none => simp only [groupScanAux, htry, ih cs h.2]

/-- C9 (amended): the extractor is a total function of the input block —
no input halts it (in this embedding every run produces a value by
construction); a block whose CLEANED text contains no `Group <n>` marker
yields zero groups; and a nonempty line that matches none of the entry
patterns leaves the parse state untouched.  (As stated the claim fails:
preamble stripping can splice a marker together out of a block that has
none, see the counterexample.) -/
theorem C9_best_effort_amended :
    (∀ t : List Char,
      hasGroupMarker (clean_response_text t) = false → parse_response t = []) ∧
    (∀ (st : PState) (l : List Char),
      wordMnemonicMatch (pyStrip l) = none →
      startsWithCI "mnemonic:".data (pyStrip l) = false →
      startsWithCI "definition:".data (pyStrip l) = false →
      wordDefMatch (pyStrip l) = none →
      stepLine st l = st) := by
  constructor
  · intro t h
    unfold parse_response groupPairs
    simp [groupScanAux_no_marker _ _ h]
  · intro st l h1 h2 h3 h4
    unfold stepLine
    cases hemp : (pyStrip l).isEmpty with
    | true => simp [hemp]
    | false => simp [hemp, h1, h2, h3, h4]

/-- Counterexample to C9 as stated: the block
`Group` / `Of course. 5` / `Foo - bar` contains no `Group <n>` marker,
yet the extractor returns one group: stripping the preamble phrase
`Of course. ` splices `Group` and `5` together around a newline, which
`\s+` then matches. -/
theorem C9_counterexample :
    hasGroupMarker "Group\nOf course. 5\nFoo - bar".data = false ∧
      parse_response "Group\nOf course. 5\nFoo - bar".data =
        [⟨5, [⟨"Foo".data, [], "bar".data⟩]⟩] := by decide

/-- Witness for C9 (amended): a marker-free block parses to no groups,
and a line matching no pattern is a no-op on the state. -/
theorem C9_best_effort_amended_witness :
    parse_response "just some plain prose".data = [] ∧
      stepLine st0 "???".data = st0 :=
  ⟨C9_best_effort_amended.1 "just some plain prose".data (by decide),
    C9_best_effort_amended.2 st0 "???".data (by decide) (by decide) (by decide) (by decide)⟩
